import Mathlib

/-!
# Verification of the quantitative core (`quant_engine.py`) of the
  Polymarket research terminal

Shallow embedding of the data model (`models.py`) and the three core
operations of `quant_engine.py`:

* `calculate_effective_price` — the order-book walk computing a
  size-weighted effective fill price (lines 48–78 of the source);
* `BetaModel.parameters` / `BetaModel.pdf` — belief-to-Beta-shape
  conversion and density sampling (lines 32–45);
* `compute_trade_metrics` — EV and Kelly sizing (lines 81–97).

Python floats are embedded as exact rationals `ℚ`; the Beta density
(computed in the source by the external `scipy.stats.beta.pdf`) is
embedded over `ℝ`.  The `for`-loop with `break` in
`calculate_effective_price` is embedded as structural recursion over the
level list (`walkBook`): the loop's three accumulators
`remaining_notional`, `total_cost`, `total_shares` appear as the three
components of the returned triple, with the additions that the loop
performs on `total_cost` and `total_shares` applied on the way out of
the recursion.
-/

/-- `models.py` `OrderbookLevel`: a single price level of the book. -/
structure OrderbookLevel where
  price : ℚ
  size : ℚ
deriving DecidableEq, Repr

/-- `models.py` `Orderbook`: bid levels (sorted by descending price) and
ask levels (sorted by ascending price); either side may be empty. -/
structure Orderbook where
  bids : List OrderbookLevel
  asks : List OrderbookLevel
deriving DecidableEq, Repr

/-- `quant_engine.py` `Side`: trade direction for orderbook walking. -/
inductive Side where
  | BUY
  | SELL
deriving DecidableEq, Repr

/-- The error kinds `calculate_effective_price` can raise:
`ValueError("Trade size must be positive")` and `OrderbookDepthError`. -/
inductive QuantError where
  | InvalidInput
  | InsufficientDepth
deriving DecidableEq, Repr

/-- `models.py` `TradeScenario`: result record of `compute_trade_metrics`. -/
structure TradeScenario where
  trade_size_usd : ℚ
  belief_probability : ℚ
  effective_entry_price : ℚ
  ev_percentage : ℚ
  kelly_fraction : ℚ
deriving DecidableEq, Repr

/-- `np.clip(x, lo, hi)`: equivalent to `np.minimum(np.maximum(x, lo), hi)`. -/
def np_clip (x lo hi : ℚ) : ℚ :=
  min (max x lo) hi

/-- The level sequence selected at line 55:
`orderbook.asks if side == Side.BUY else orderbook.bids`. -/
def sideLevels (orderbook : Orderbook) (side : Side) : List OrderbookLevel :=
  match side with
  | Side.BUY => orderbook.asks
  | Side.SELL => orderbook.bids

/-- The traversal loop of `calculate_effective_price` (source lines 60–72).
Returns the triple `(remaining_notional, total_cost, total_shares)` after
the loop exits (by exhausting the levels or by `break`), given the value
of `remaining_notional` at loop entry; `total_cost` and `total_shares`
both enter the loop at `0`. -/
def walkBook : List OrderbookLevel → ℚ → ℚ × ℚ × ℚ
  | [], remaining => (remaining, 0, 0)
  | level :: rest, remaining =>
    let level_notional := level.price * level.size
    if level_notional ≤ 0 then
      walkBook rest remaining
    else if remaining ≤ level_notional then
      (0, remaining, remaining / level.price)
    else
      ((walkBook rest (remaining - level_notional)).1,
       level_notional + (walkBook rest (remaining - level_notional)).2.1,
       level.size + (walkBook rest (remaining - level_notional)).2.2)

/-- `remaining_notional` after the traversal loop. -/
def walkRemaining (levels : List OrderbookLevel) (n : ℚ) : ℚ :=
  (walkBook levels n).1

/-- `total_cost` after the traversal loop. -/
def walkCost (levels : List OrderbookLevel) (n : ℚ) : ℚ :=
  (walkBook levels n).2.1

/-- `total_shares` after the traversal loop. -/
def walkShares (levels : List OrderbookLevel) (n : ℚ) : ℚ :=
  (walkBook levels n).2.2

/-- `quant_engine.py` lines 48–78: walk the orderbook and compute the VWAP
for the trade size, or fail. -/
def calculate_effective_price (orderbook : Orderbook) (side : Side)
    (trade_size_usd : ℚ) : Except QuantError ℚ :=
  if trade_size_usd ≤ 0 then
    Except.error QuantError.InvalidInput
  else
    let levels := sideLevels orderbook side
    let remaining_notional := walkRemaining levels trade_size_usd
    let total_cost := walkCost levels trade_size_usd
    let total_shares := walkShares levels trade_size_usd
    if 0 < remaining_notional then
      Except.error QuantError.InsufficientDepth
    else if total_shares ≤ 0 then
      Except.error QuantError.InsufficientDepth
    else
      Except.ok (total_cost / total_shares)

/-- `quant_engine.py` lines 81–97: expected value and Kelly sizing. -/
def compute_trade_metrics (entry_price target_probability trade_size : ℚ) :
    TradeScenario :=
  let price := np_clip entry_price 0 1
  let probability := np_clip target_probability 0 1
  let ev := probability * 1 - price
  let denom := max (1 - price) (1 / 1000000)
  let kelly_fraction := max 0 (ev / denom)
  { trade_size_usd := trade_size
    belief_probability := probability
    effective_entry_price := price
    ev_percentage := ev * 100
    kelly_fraction := kelly_fraction }

/-- `quant_engine.py` `BetaModel`: beta distribution model for binary
event beliefs. -/
structure BetaModel where
  belief_probability : ℚ
  confidence_strength : ℚ
deriving DecidableEq, Repr

/-- `BetaModel.parameters` (lines 32–38): convert belief inputs to
alpha/beta parameters. -/
def BetaModel.parameters (m : BetaModel) : ℚ × ℚ :=
  let belief := np_clip m.belief_probability 0 1
  let strength := np_clip m.confidence_strength 1 100
  (belief * strength + 1, (1 - belief) * strength + 1)

/-- `np.linspace a b n`: `n` evenly spaced samples over `[a, b]`, both
endpoints included (for `n ≥ 2`; `n = 1` gives `[a]`, `n = 0` gives `[]`,
matching numpy). -/
def linspace (a b : ℚ) (n : ℕ) : List ℚ :=
  (List.range n).map
    (fun (i : ℕ) => a + (b - a) * (i : ℚ) / ((n : ℚ) - 1))

/-- The `x` array returned by `BetaModel.pdf` (line 43):
`np.linspace(0.0, 1.0, points)`. -/
def BetaModel.pdf_xs (points : ℕ) : List ℚ :=
  linspace 0 1 points

/-- Modelled from the spec: the source calls the external library function
`scipy.stats.beta.pdf` (line 44), whose code is not part of this
repository; the spec defines the intended density as the standard Beta
PDF `f(x) = x^(alpha-1) * (1-x)^(beta-1) / B(alpha, beta)` with
`B(a, b) = Γ(a) Γ(b) / Γ(a+b)`. -/
noncomputable def betaPDF (a b x : ℝ) : ℝ :=
  x ^ (a - 1) * (1 - x) ^ (b - 1) /
    (Real.Gamma a * Real.Gamma b / Real.Gamma (a + b))

/-- The `y` array returned by `BetaModel.pdf` (line 44): the Beta density
evaluated pointwise on the `x` array with the model's shape parameters. -/
noncomputable def BetaModel.pdf_ys (m : BetaModel) (points : ℕ) : List ℝ :=
  (BetaModel.pdf_xs points).map
    (fun (x : ℚ) =>
      betaPDF ((m.parameters).1 : ℝ) ((m.parameters).2 : ℝ) (x : ℝ))

/-- Total ask-side (resp. bid-side) liquidity in notional terms:
the sum of `price * size` over the levels. -/
def liquidityNotional (levels : List OrderbookLevel) : ℚ :=
  (levels.map (fun l => l.price * l.size)).sum

/-- The list of fills `(price, shares)` the traversal of
`calculate_effective_price` performs, one entry per level it consumes
liquidity from (for the level that completes the order, the shares are
the partial allocation `remaining / price`; skipped non-positive-notional
levels contribute no entry). -/
def fills : List OrderbookLevel → ℚ → List (ℚ × ℚ)
  | [], _ => []
  | level :: rest, remaining =>
    let level_notional := level.price * level.size
    if level_notional ≤ 0 then
      fills rest remaining
    else if remaining ≤ level_notional then
      [(level.price, remaining / level.price)]
    else
      (level.price, level.size) :: fills rest (remaining - level_notional)

/-- Division-checked variant of the traversal loop: identical to
`walkBook` except that it returns `none` if the division
`remaining / level.price` would have a zero divisor. -/
def walkBookChecked : List OrderbookLevel → ℚ → Option (ℚ × ℚ × ℚ)
  | [], remaining => some (remaining, 0, 0)
  | level :: rest, remaining =>
    let level_notional := level.price * level.size
    if level_notional ≤ 0 then
      walkBookChecked rest remaining
    else if remaining ≤ level_notional then
      if level.price = 0 then none
      else some (0, remaining, remaining / level.price)
    else
      (walkBookChecked rest (remaining - level_notional)).map
        (fun t => (t.1, level_notional + t.2.1, level.size + t.2.2))

/-- Division-checked variant of `calculate_effective_price`: identical
control flow, but returns `none` if any division performed (inside the
traversal, or the final `total_cost / total_shares`) would have a zero
divisor. -/
def calculate_effective_price_checked (orderbook : Orderbook) (side : Side)
    (trade_size_usd : ℚ) : Option (Except QuantError ℚ) :=
  if trade_size_usd ≤ 0 then
    some (Except.error QuantError.InvalidInput)
  else
    (walkBookChecked (sideLevels orderbook side) trade_size_usd).bind
      (fun t =>
        if 0 < t.1 then
          some (Except.error QuantError.InsufficientDepth)
        else if t.2.2 ≤ 0 then
          some (Except.error QuantError.InsufficientDepth)
        else if t.2.2 = 0 then none
        else some (Except.ok (t.2.1 / t.2.2)))

/-- The orderbook with extra levels appended after the existing levels of
the side that `calculate_effective_price` traverses. -/
def appendSide (orderbook : Orderbook) (side : Side)
    (extra : List OrderbookLevel) : Orderbook :=
  match side with
  | Side.BUY => { bids := orderbook.bids, asks := orderbook.asks ++ extra }
  | Side.SELL => { bids := orderbook.bids ++ extra, asks := orderbook.asks }

/-- A concrete two-level book (descending bids, ascending asks) used to
instantiate the universally quantified claim theorems — its ask side is
the book of the spec's spanning-fill example. -/
def demoBook : Orderbook :=
  { bids := [⟨3/5, 100⟩, ⟨1/2, 50⟩], asks := [⟨2/5, 50⟩, ⟨1/2, 100⟩] }

/-! ## Basic traversal lemmas -/

theorem walkBook_nil (n : ℚ) : walkBook [] n = (n, 0, 0) := rfl

theorem walkBook_cons_skip (l : OrderbookLevel) (ls : List OrderbookLevel)
    (n : ℚ) (h : l.price * l.size ≤ 0) :
    walkBook (l :: ls) n = walkBook ls n := by
  simp [walkBook, h]

theorem walkBook_cons_fill (l : OrderbookLevel) (ls : List OrderbookLevel)
    (n : ℚ) (h0 : ¬ l.price * l.size ≤ 0) (h1 : n ≤ l.price * l.size) :
    walkBook (l :: ls) n = (0, n, n / l.price) := by
  simp [walkBook, h0, h1]

theorem walkBook_cons_full (l : OrderbookLevel) (ls : List OrderbookLevel)
    (n : ℚ) (h0 : ¬ l.price * l.size ≤ 0) (h1 : ¬ n ≤ l.price * l.size) :
    walkBook (l :: ls) n =
      ((walkBook ls (n - l.price * l.size)).1,
       l.price * l.size + (walkBook ls (n - l.price * l.size)).2.1,
       l.size + (walkBook ls (n - l.price * l.size)).2.2) := by
  simp [walkBook, h0, h1]

/-- `remaining_notional` never goes negative and never exceeds its initial
value during the traversal. -/
theorem walkRemaining_bounds (ls : List OrderbookLevel) (n : ℚ) (hn : 0 < n) :
    0 ≤ walkRemaining ls n ∧ walkRemaining ls n ≤ n := by
  induction ls generalizing n with
  | nil => simp [walkRemaining, walkBook_nil]; positivity
  | cons l ls ih =>
    by_cases h0 : l.price * l.size ≤ 0
    · simpa [walkRemaining, walkBook_cons_skip l ls n h0] using ih n hn
    · by_cases h1 : n ≤ l.price * l.size
      · simp [walkRemaining, walkBook_cons_fill l ls n h0 h1]
        positivity
      · have hrec := ih (n - l.price * l.size) (by linarith)
        simp only [walkRemaining, walkBook_cons_full l ls n h0 h1] at hrec ⊢
        constructor
        · exact hrec.1
        · linarith [hrec.2]

/-- The loop spends exactly `n - remaining` notional:
`total_cost = n - remaining_notional` at loop exit. -/
theorem walkCost_eq_spent (ls : List OrderbookLevel) (n : ℚ) :
    walkCost ls n = n - walkRemaining ls n := by
  induction ls generalizing n with
  | nil => simp [walkCost, walkRemaining, walkBook_nil]
  | cons l ls ih =>
    by_cases h0 : l.price * l.size ≤ 0
    · simpa [walkCost, walkRemaining, walkBook_cons_skip l ls n h0] using ih n
    · by_cases h1 : n ≤ l.price * l.size
      · simp [walkCost, walkRemaining, walkBook_cons_fill l ls n h0 h1]
      · have hrec := ih (n - l.price * l.size)
        simp only [walkCost, walkRemaining,
          walkBook_cons_full l ls n h0 h1] at hrec ⊢
        linarith

/-- Total liquidity of a list of levels with individually nonnegative
notionals is nonnegative. -/
theorem liquidityNotional_nonneg (ls : List OrderbookLevel)
    (h : ∀ l ∈ ls, 0 ≤ l.price * l.size) : 0 ≤ liquidityNotional ls := by
  refine List.sum_nonneg ?_
  intro x hx
  obtain ⟨l, hl, rfl⟩ := List.mem_map.mp hx
  exact h l hl

/-- Exhaustion dichotomy: on a book whose levels all have nonnegative
notional, either the walk fills completely (`remaining = 0`, which happens
exactly when the request does not exceed total liquidity), or the book is
exhausted and `remaining = n - L` stays positive. -/
theorem walkRemaining_dichotomy (ls : List OrderbookLevel) (n : ℚ)
    (hn : 0 < n) (hl : ∀ l ∈ ls, 0 ≤ l.price * l.size) :
    (walkRemaining ls n = 0 ∧ n ≤ liquidityNotional ls) ∨
    (walkRemaining ls n = n - liquidityNotional ls ∧
      liquidityNotional ls < n) := by
  induction ls generalizing n with
  | nil =>
    right
    simp [walkRemaining, walkBook_nil, liquidityNotional]
    exact hn
  | cons l ls ih =>
    have hln : 0 ≤ l.price * l.size := hl l (List.mem_cons_self l ls)
    have hl' : ∀ x ∈ ls, 0 ≤ x.price * x.size :=
      fun x hx => hl x (List.mem_cons_of_mem l hx)
    have hliq : liquidityNotional (l :: ls) =
        l.price * l.size + liquidityNotional ls := by
      simp [liquidityNotional]
    by_cases h0 : l.price * l.size ≤ 0
    · have hz : l.price * l.size = 0 := le_antisymm h0 hln
      rw [walkRemaining, walkBook_cons_skip l ls n h0, hliq, hz]
      simpa using ih n hn hl'
    · by_cases h1 : n ≤ l.price * l.size
      · left
        have htail : 0 ≤ liquidityNotional ls := liquidityNotional_nonneg ls hl'
        constructor
        · simp [walkRemaining, walkBook_cons_fill l ls n h0 h1]
        · rw [hliq]; linarith
      · have hrec := ih (n - l.price * l.size) (by linarith) hl'
        rw [walkRemaining, walkBook_cons_full l ls n h0 h1, hliq]
        rcases hrec with ⟨hr, hle⟩ | ⟨hr, hlt⟩
        · left
          exact ⟨hr, by linarith⟩
        · right
          simp only [walkRemaining] at hr
          exact ⟨by rw [hr]; ring, by linarith⟩

/-! ## Fill-list lemmas -/

/-- `total_cost` is the sum of `price * shares` over the fills performed. -/
theorem walkCost_eq_fills (ls : List OrderbookLevel) (n : ℚ) :
    walkCost ls n = ((fills ls n).map (fun f => f.1 * f.2)).sum := by
  induction ls generalizing n with
  | nil => simp [walkCost, walkBook_nil, fills]
  | cons l ls ih =>
    by_cases h0 : l.price * l.size ≤ 0
    · simpa [walkCost, walkBook_cons_skip l ls n h0, fills, h0] using ih n
    · by_cases h1 : n ≤ l.price * l.size
      · have hp : l.price ≠ 0 := by
          intro hz
          exact h0 (by rw [hz]; simp)
        simp [walkCost, walkBook_cons_fill l ls n h0 h1, fills, h0, h1,
          mul_div_cancel₀ n hp]
      · have hrec := ih (n - l.price * l.size)
        simp only [walkCost, walkBook_cons_full l ls n h0 h1] at hrec ⊢
        simp [fills, h0, h1, hrec]

/-- `total_shares` is the sum of the share amounts over the fills. -/
theorem walkShares_eq_fills (ls : List OrderbookLevel) (n : ℚ) :
    walkShares ls n = ((fills ls n).map Prod.snd).sum := by
  induction ls generalizing n with
  | nil => simp [walkShares, walkBook_nil, fills]
  | cons l ls ih =>
    by_cases h0 : l.price * l.size ≤ 0
    · simpa [walkShares, walkBook_cons_skip l ls n h0, fills, h0] using ih n
    · by_cases h1 : n ≤ l.price * l.size
      · simp [walkShares, walkBook_cons_fill l ls n h0 h1, fills, h0, h1]
      · have hrec := ih (n - l.price * l.size)
        simp only [walkShares, walkBook_cons_full l ls n h0 h1] at hrec ⊢
        simp [fills, h0, h1, hrec]

/-- If the walk performs no fill at all, it spends nothing. -/
theorem fills_nil_remaining (ls : List OrderbookLevel) (n : ℚ)
    (h : fills ls n = []) : walkRemaining ls n = n := by
  induction ls generalizing n with
  | nil => simp [walkRemaining, walkBook_nil]
  | cons l ls ih =>
    by_cases h0 : l.price * l.size ≤ 0
    · simp only [fills, h0, if_pos] at h
      simpa [walkRemaining, walkBook_cons_skip l ls n h0] using ih n h
    · by_cases h1 : n ≤ l.price * l.size
      · simp [fills, h0, h1] at h
      · simp [fills, h0, h1] at h

/-- On a book of positive prices and nonnegative sizes, every fill has
positive price and positive share count. -/
theorem fills_pos (ls : List OrderbookLevel) (n : ℚ) (hn : 0 < n)
    (hl : ∀ l ∈ ls, 0 < l.price ∧ 0 ≤ l.size) :
    ∀ f ∈ fills ls n, 0 < f.1 ∧ 0 < f.2 := by
  induction ls generalizing n with
  | nil => simp [fills]
  | cons l ls ih =>
    have hp : 0 < l.price := (hl l (List.mem_cons_self l ls)).1
    have hl' : ∀ x ∈ ls, 0 < x.price ∧ 0 ≤ x.size :=
      fun x hx => hl x (List.mem_cons_of_mem l hx)
    by_cases h0 : l.price * l.size ≤ 0
    · intro f hf
      rw [fills] at hf
      simp only [h0, if_pos] at hf
      exact ih n hn hl' f hf
    · by_cases h1 : n ≤ l.price * l.size
      · intro f hf
        rw [fills] at hf
        simp only [h0, h1, if_neg, if_pos, not_false_eq_true,
          List.mem_singleton] at hf
        subst hf
        exact ⟨hp, div_pos hn hp⟩
      · intro f hf
        rw [fills] at hf
        simp only [h0, h1, if_neg, not_false_eq_true, List.mem_cons] at hf
        rcases hf with rfl | hf
        · refine ⟨hp, ?_⟩
          push_neg at h0
          rcases (hl l (List.mem_cons_self l ls)).2.lt_or_eq with hs | hs
          · exact hs
          · rw [← hs, mul_zero] at h0
            exact absurd h0 (lt_irrefl 0)
        · exact ih (n - l.price * l.size) (by push_neg at h1; linarith) hl' f hf

/-- A nonempty list of rationals has a least element. -/
theorem exists_list_min (xs : List ℚ) (h : xs ≠ []) :
    ∃ m ∈ xs, ∀ x ∈ xs, m ≤ x := by
  induction xs with
  | nil => exact absurd rfl h
  | cons a t ih =>
    by_cases ht : t = []
    · exact ⟨a, List.mem_cons_self a t, by simp [ht]⟩
    · obtain ⟨m, hm, hall⟩ := ih ht
      by_cases hma : m ≤ a
      · exact ⟨m, List.mem_cons_of_mem a hm, by
          intro x hx
          rcases List.mem_cons.mp hx with rfl | hx
          · exact hma
          · exact hall x hx⟩
      · exact ⟨a, List.mem_cons_self a t, by
          intro x hx
          rcases List.mem_cons.mp hx with rfl | hx
          · exact le_refl x
          · exact le_trans (by linarith) (hall x hx)⟩

/-- A nonempty list of rationals has a greatest element. -/
theorem exists_list_max (xs : List ℚ) (h : xs ≠ []) :
    ∃ m ∈ xs, ∀ x ∈ xs, x ≤ m := by
  induction xs with
  | nil => exact absurd rfl h
  | cons a t ih =>
    by_cases ht : t = []
    · exact ⟨a, List.mem_cons_self a t, by simp [ht]⟩
    · obtain ⟨m, hm, hall⟩ := ih ht
      by_cases hma : a ≤ m
      · exact ⟨m, List.mem_cons_of_mem a hm, by
          intro x hx
          rcases List.mem_cons.mp hx with rfl | hx
          · exact hma
          · exact hall x hx⟩
      · exact ⟨a, List.mem_cons_self a t, by
          intro x hx
          rcases List.mem_cons.mp hx with rfl | hx
          · exact le_refl x
          · exact le_trans (hall x hx) (by linarith)⟩

/-- Lower weighted-average bound: if every fill price is at least `p` and
all share counts are nonnegative, the total cost is at least
`p * total shares`. -/
theorem fills_cost_lower (fs : List (ℚ × ℚ)) (p : ℚ)
    (h : ∀ f ∈ fs, p ≤ f.1 ∧ 0 ≤ f.2) :
    p * (fs.map Prod.snd).sum ≤ (fs.map (fun f => f.1 * f.2)).sum := by
  induction fs with
  | nil => simp
  | cons f t ih =>
    have hf := h f (List.mem_cons_self f t)
    have ht := ih (fun x hx => h x (List.mem_cons_of_mem f hx))
    have : p * f.2 ≤ f.1 * f.2 := mul_le_mul_of_nonneg_right hf.1 hf.2
    simp only [List.map_cons, List.sum_cons]
    nlinarith

/-- Upper weighted-average bound: if every fill price is at most `p` and
all share counts are nonnegative, the total cost is at most
`p * total shares`. -/
theorem fills_cost_upper (fs : List (ℚ × ℚ)) (p : ℚ)
    (h : ∀ f ∈ fs, f.1 ≤ p ∧ 0 ≤ f.2) :
    (fs.map (fun f => f.1 * f.2)).sum ≤ p * (fs.map Prod.snd).sum := by
  induction fs with
  | nil => simp
  | cons f t ih =>
    have hf := h f (List.mem_cons_self f t)
    have ht := ih (fun x hx => h x (List.mem_cons_of_mem f hx))
    have : f.1 * f.2 ≤ p * f.2 := mul_le_mul_of_nonneg_right hf.1 hf.2
    simp only [List.map_cons, List.sum_cons]
    nlinarith

/-- Sum of positive share counts over a nonempty fill list is positive. -/
theorem fills_shares_pos (fs : List (ℚ × ℚ)) (hne : fs ≠ [])
    (h : ∀ f ∈ fs, 0 < f.2) : 0 < (fs.map Prod.snd).sum := by
  induction fs with
  | nil => exact absurd rfl hne
  | cons f t ih =>
    have hf := h f (List.mem_cons_self f t)
    by_cases ht : t = []
    · simp [ht, hf]
    · have := ih ht (fun x hx => h x (List.mem_cons_of_mem f hx))
      simp only [List.map_cons, List.sum_cons]
      linarith

/-! ## Claim theorems -/

/-- C1: for a book whose ask levels all have price in `(0,1]` and
nonnegative size and any notional `n > 0`, with `L` the total ask
liquidity notional: if `n ≤ L` then `calculate_effective_price` on the
BUY side succeeds with a price lying between the minimum and the maximum
of the prices of the levels actually consumed; if `n > L` it fails with
`InsufficientDepth`. -/
theorem effective_price_depth_spec (ob : Orderbook) (n : ℚ)
    (hasks : ∀ l ∈ ob.asks, 0 < l.price ∧ l.price ≤ 1 ∧ 0 ≤ l.size)
    (hn : 0 < n) :
    (n ≤ liquidityNotional ob.asks →
      ∃ r, calculate_effective_price ob Side.BUY n = Except.ok r ∧
        ∃ plo ∈ (fills ob.asks n).map Prod.fst,
          ∃ phi ∈ (fills ob.asks n).map Prod.fst,
            plo ≤ r ∧ r ≤ phi ∧
              ∀ p ∈ (fills ob.asks n).map Prod.fst, plo ≤ p ∧ p ≤ phi) ∧
    (liquidityNotional ob.asks < n →
      calculate_effective_price ob Side.BUY n =
        Except.error QuantError.InsufficientDepth) := by
  have hl2 : ∀ l ∈ ob.asks, 0 ≤ l.price * l.size :=
    fun l hl => mul_nonneg (hasks l hl).1.le (hasks l hl).2.2
  have hl3 : ∀ l ∈ ob.asks, 0 < l.price ∧ 0 ≤ l.size :=
    fun l hl => ⟨(hasks l hl).1, (hasks l hl).2.2⟩
  have hdich := walkRemaining_dichotomy ob.asks n hn hl2
  constructor
  · intro hle
    rcases hdich with ⟨hr0, _⟩ | ⟨_, hlt⟩
    · have hfne : fills ob.asks n ≠ [] := by
        intro hnil
        have := fills_nil_remaining ob.asks n hnil
        rw [hr0] at this
        linarith
      have hfpos := fills_pos ob.asks n hn hl3
      have hsh : 0 < walkShares ob.asks n := by
        rw [walkShares_eq_fills]
        exact fills_shares_pos (fills ob.asks n) hfne
          (fun f hf => (hfpos f hf).2)
      have hps : (fills ob.asks n).map Prod.fst ≠ [] := by
        simpa using hfne
      obtain ⟨plo, hplo, hlomin⟩ :=
        exists_list_min ((fills ob.asks n).map Prod.fst) hps
      obtain ⟨phi, hphi, hhimax⟩ :=
        exists_list_max ((fills ob.asks n).map Prod.fst) hps
      refine ⟨walkCost ob.asks n / walkShares ob.asks n, ?_, plo, hplo,
        phi, hphi, ?_, ?_, fun p hp => ⟨hlomin p hp, hhimax p hp⟩⟩
      · simp [calculate_effective_price, sideLevels, hn.not_le, hr0,
          hsh.not_le]
      · rw [le_div_iff₀ hsh, walkCost_eq_fills, walkShares_eq_fills]
        exact fills_cost_lower (fills ob.asks n) plo
          (fun f hf => ⟨hlomin f.1 (List.mem_map_of_mem Prod.fst hf),
            (hfpos f hf).2.le⟩)
      · rw [div_le_iff₀ hsh, walkCost_eq_fills, walkShares_eq_fills]
        exact fills_cost_upper (fills ob.asks n) phi
          (fun f hf => ⟨hhimax f.1 (List.mem_map_of_mem Prod.fst hf),
            (hfpos f hf).2.le⟩)
    · linarith
  · intro hgt
    rcases hdich with ⟨_, hle⟩ | ⟨hr, _⟩
    · linarith
    · have hpos : 0 < walkRemaining ob.asks n := by rw [hr]; linarith
      simp [calculate_effective_price, sideLevels, hn.not_le, hpos]

/-- C1 witness: the theorem instantiated on the two-level demo book with
a notional inside the available liquidity. -/
theorem effective_price_depth_spec_witness :
    (∀ l ∈ demoBook.asks, 0 < l.price ∧ l.price ≤ 1 ∧ 0 ≤ l.size) ∧
    0 < (30 : ℚ) ∧
    (((30 : ℚ) ≤ liquidityNotional demoBook.asks →
      ∃ r, calculate_effective_price demoBook Side.BUY 30 = Except.ok r ∧
        ∃ plo ∈ (fills demoBook.asks 30).map Prod.fst,
          ∃ phi ∈ (fills demoBook.asks 30).map Prod.fst,
            plo ≤ r ∧ r ≤ phi ∧
              ∀ p ∈ (fills demoBook.asks 30).map Prod.fst,
                plo ≤ p ∧ p ≤ phi) ∧
    (liquidityNotional demoBook.asks < (30 : ℚ) →
      calculate_effective_price demoBook Side.BUY 30 =
        Except.error QuantError.InsufficientDepth)) := by
  have h1 : ∀ l ∈ demoBook.asks, 0 < l.price ∧ l.price ≤ 1 ∧ 0 ≤ l.size := by
    intro l hl
    fin_cases hl <;> norm_num
  have h2 : 0 < (30 : ℚ) := by norm_num
  exact ⟨h1, h2, effective_price_depth_spec demoBook 30 h1 h2⟩

/-- `calculate_effective_price` written as a single nested conditional in
terms of the traversal results — definitional unfolding. -/
theorem calculate_effective_price_eq (ob : Orderbook) (side : Side) (n : ℚ) :
    calculate_effective_price ob side n =
      if n ≤ 0 then Except.error QuantError.InvalidInput
      else if 0 < walkRemaining (sideLevels ob side) n then
        Except.error QuantError.InsufficientDepth
      else if walkShares (sideLevels ob side) n ≤ 0 then
        Except.error QuantError.InsufficientDepth
      else
        Except.ok (walkCost (sideLevels ob side) n /
          walkShares (sideLevels ob side) n) := rfl

/-- C2: `calculate_effective_price` fails with `InvalidInput` exactly when
the notional is non-positive; for a positive notional it fails with
`InsufficientDepth` exactly when the traversal leaves
`remaining_notional > 0` or `total_shares ≤ 0`; in every other case it
succeeds, returning `total_cost / total_shares`; these are the only
failure modes, and an empty ask side fails a BUY with
`InsufficientDepth` for every positive notional. -/
theorem effective_price_error_spec (ob : Orderbook) (side : Side) (n : ℚ) :
    (calculate_effective_price ob side n =
        Except.error QuantError.InvalidInput ↔ n ≤ 0) ∧
    (calculate_effective_price ob side n =
        Except.error QuantError.InsufficientDepth ↔
      0 < n ∧ (0 < walkRemaining (sideLevels ob side) n ∨
        walkShares (sideLevels ob side) n ≤ 0)) ∧
    (0 < n → ¬ 0 < walkRemaining (sideLevels ob side) n →
      ¬ walkShares (sideLevels ob side) n ≤ 0 →
      calculate_effective_price ob side n =
        Except.ok (walkCost (sideLevels ob side) n /
          walkShares (sideLevels ob side) n)) ∧
    (0 < n → ob.asks = [] →
      calculate_effective_price ob Side.BUY n =
        Except.error QuantError.InsufficientDepth) := by
  refine ⟨?_, ?_, ?_, ?_⟩
  · rw [calculate_effective_price_eq]
    split_ifs with h1 h2 h3 <;> simp [h1]
  · rw [calculate_effective_price_eq]
    split_ifs with h1 h2 h3
    · simp only [Except.error.injEq]
      constructor
      · intro h
        cases h
      · rintro ⟨h, -⟩
        linarith
    · simp only [true_iff]
      exact ⟨not_le.mp h1, Or.inl h2⟩
    · simp only [true_iff]
      exact ⟨not_le.mp h1, Or.inr h3⟩
    · simp only [reduceCtorEq, false_iff, not_and, not_or]
      intro _
      exact ⟨h2, h3⟩
  · intro hn hr hs
    rw [calculate_effective_price_eq, if_neg hn.not_le, if_neg hr, if_neg hs]
  · intro hn hempty
    have hlv : sideLevels ob Side.BUY = [] := hempty
    rw [calculate_effective_price_eq, if_neg hn.not_le, hlv]
    have : walkRemaining [] n = n := rfl
    rw [this, if_pos hn]

/-- C2 witness: the empty book fails a BUY of notional 5 with
`InsufficientDepth`. -/
theorem effective_price_error_spec_witness :
    calculate_effective_price { bids := [], asks := [] } Side.BUY 5 =
      Except.error QuantError.InsufficientDepth :=
  (effective_price_error_spec { bids := [], asks := [] } Side.BUY 5).2.2.2
    (by norm_num) rfl

/-- C3: on asks `[(0.40, 50), (0.50, 100)]` with notional 30 the walk
fully consumes the first level (20 notional, 50 shares), fills the
remaining 10 notional at price 0.50 for `10 / 0.50 = 20` shares — the
partial allocation, not the level's full size of 100 — and the effective
price is `30 / 70`. -/
theorem effective_price_spanning_fill_example :
    fills [⟨2/5, 50⟩, ⟨1/2, 100⟩] 30 = [(2/5, 50), (1/2, 20)] ∧
    walkCost [⟨2/5, 50⟩, ⟨1/2, 100⟩] 30 = 30 ∧
    walkShares [⟨2/5, 50⟩, ⟨1/2, 100⟩] 30 = 70 ∧
    calculate_effective_price
      { bids := [], asks := [⟨2/5, 50⟩, ⟨1/2, 100⟩] } Side.BUY 30 =
      Except.ok (30 / 70) := by
  refine ⟨?_, ?_, ?_, ?_⟩ <;>
    norm_num [fills, walkCost, walkShares, walkRemaining, walkBook,
      calculate_effective_price, sideLevels]

/-- Appending levels after a book the walk already fills completely does
not change the traversal result. -/
theorem walkBook_append (ls extra : List OrderbookLevel) (n : ℚ)
    (hn : 0 < n) (hr : walkRemaining ls n = 0) :
    walkBook (ls ++ extra) n = walkBook ls n := by
  induction ls generalizing n with
  | nil =>
    have : walkRemaining [] n = n := rfl
    rw [this] at hr
    linarith
  | cons l ls ih =>
    by_cases h0 : l.price * l.size ≤ 0
    · rw [List.cons_append, walkBook_cons_skip _ _ _ h0,
        walkBook_cons_skip _ _ _ h0]
      rw [walkRemaining, walkBook_cons_skip _ _ _ h0] at hr
      exact ih n hn hr
    · by_cases h1 : n ≤ l.price * l.size
      · rw [List.cons_append, walkBook_cons_fill _ _ _ h0 h1,
          walkBook_cons_fill _ _ _ h0 h1]
      · rw [walkRemaining, walkBook_cons_full _ _ _ h0 h1] at hr
        rw [List.cons_append, walkBook_cons_full _ _ _ h0 h1,
          walkBook_cons_full _ _ _ h0 h1,
          ih (n - l.price * l.size) (by push_neg at h1; linarith) hr]

/-- C5: if `calculate_effective_price` succeeds, appending any further
levels after the traversed side leaves the returned effective price
unchanged — the result depends only on the prefix of levels up to and
including the one that completes the fill. -/
theorem effective_price_prefix_spec (ob : Orderbook) (side : Side)
    (n r : ℚ) (extra : List OrderbookLevel)
    (h : calculate_effective_price ob side n = Except.ok r) :
    calculate_effective_price (appendSide ob side extra) side n =
      Except.ok r := by
  rw [calculate_effective_price_eq] at h
  by_cases hn : n ≤ 0
  · rw [if_pos hn] at h
    cases h
  · rw [if_neg hn] at h
    have hnp : 0 < n := not_le.mp hn
    by_cases h1 : 0 < walkRemaining (sideLevels ob side) n
    · rw [if_pos h1] at h
      cases h
    · rw [if_neg h1] at h
      have hr0 : walkRemaining (sideLevels ob side) n = 0 :=
        le_antisymm (not_lt.mp h1) (walkRemaining_bounds _ n hnp).1
      have happ : sideLevels (appendSide ob side extra) side =
          sideLevels ob side ++ extra := by
        cases side <;> simp [sideLevels, appendSide]
      have hw : walkBook (sideLevels ob side ++ extra) n =
          walkBook (sideLevels ob side) n :=
        walkBook_append (sideLevels ob side) extra n hnp hr0
      have hreq : walkRemaining (sideLevels (appendSide ob side extra) side)
          n = walkRemaining (sideLevels ob side) n := by
        rw [happ, walkRemaining, walkRemaining, hw]
      have hceq : walkCost (sideLevels (appendSide ob side extra) side) n =
          walkCost (sideLevels ob side) n := by
        rw [happ, walkCost, walkCost, hw]
      have hseq : walkShares (sideLevels (appendSide ob side extra) side) n =
          walkShares (sideLevels ob side) n := by
        rw [happ, walkShares, walkShares, hw]
      rw [calculate_effective_price_eq, if_neg hn, hreq, hceq, hseq,
        if_neg h1]
      exact h

/-- C5 witness: appending a deep level after the demo book does not move
the effective price of a 30-notional BUY. -/
theorem effective_price_prefix_spec_witness :
    calculate_effective_price
      (appendSide demoBook Side.BUY [⟨9/10, 1000⟩]) Side.BUY 30 =
      Except.ok (3/7) :=
  effective_price_prefix_spec demoBook Side.BUY 30 (3/7) [⟨9/10, 1000⟩]
    (by norm_num [calculate_effective_price, walkRemaining, walkCost,
      walkShares, walkBook, sideLevels, demoBook])

/-- C6: `BetaModel.parameters` clamps belief to `[0,1]` and strength to
`[1,100]`, returns `alpha = belief * strength + 1` and
`beta = (1 - belief) * strength + 1` on the clamped values for every
input (it is a total function — no input is rejected), and both returned
shape parameters are at least 1, hence strictly positive. -/
theorem beta_parameters_spec (b s : ℚ) :
    (BetaModel.parameters ⟨b, s⟩).1 =
      min (max b 0) 1 * min (max s 1) 100 + 1 ∧
    (BetaModel.parameters ⟨b, s⟩).2 =
      (1 - min (max b 0) 1) * min (max s 1) 100 + 1 ∧
    1 ≤ (BetaModel.parameters ⟨b, s⟩).1 ∧
    1 ≤ (BetaModel.parameters ⟨b, s⟩).2 ∧
    0 < (BetaModel.parameters ⟨b, s⟩).1 ∧
    0 < (BetaModel.parameters ⟨b, s⟩).2 := by
  have hb0 : 0 ≤ min (max b 0) 1 := le_min (le_max_right b 0) (by norm_num)
  have hb1 : min (max b 0) 1 ≤ 1 := min_le_right _ _
  have hs1 : 1 ≤ min (max s 1) 100 := le_min (le_max_right s 1) (by norm_num)
  refine ⟨rfl, rfl, ?_, ?_, ?_, ?_⟩ <;>
    simp only [BetaModel.parameters, np_clip] <;> nlinarith

/-- C7: `compute_trade_metrics` clamps both price inputs to `[0,1]`,
reports `ev_percentage = (probability - price) * 100` and
`kelly_fraction = max 0 (ev / max (1 - price) 1e-6)`, which is never
negative; at `targetProbability = 0.3`, `entryPrice = 0.5` the EV is
`-0.2` (`-20`%) and the Kelly fraction is floored to 0. -/
theorem trade_metrics_spec (e t sz : ℚ) :
    (compute_trade_metrics e t sz).trade_size_usd = sz ∧
    (compute_trade_metrics e t sz).effective_entry_price =
      min (max e 0) 1 ∧
    (compute_trade_metrics e t sz).belief_probability = min (max t 0) 1 ∧
    (compute_trade_metrics e t sz).ev_percentage =
      (min (max t 0) 1 - min (max e 0) 1) * 100 ∧
    (compute_trade_metrics e t sz).kelly_fraction =
      max 0 ((min (max t 0) 1 - min (max e 0) 1) /
        max (1 - min (max e 0) 1) (1/1000000)) ∧
    0 ≤ (compute_trade_metrics e t sz).kelly_fraction ∧
    (compute_trade_metrics (1/2) (3/10) sz).ev_percentage = -20 ∧
    (compute_trade_metrics (1/2) (3/10) sz).kelly_fraction = 0 := by
  refine ⟨rfl, rfl, rfl, by simp [compute_trade_metrics, np_clip],
    by simp [compute_trade_metrics, np_clip], le_max_left 0 _, ?_, ?_⟩ <;>
    norm_num [compute_trade_metrics, np_clip]

/-- The division-checked traversal never hits a zero divisor: it always
agrees with the unchecked traversal. -/
theorem walkBookChecked_eq (ls : List OrderbookLevel) (n : ℚ) :
    walkBookChecked ls n = some (walkBook ls n) := by
  induction ls generalizing n with
  | nil => rfl
  | cons l ls ih =>
    by_cases h0 : l.price * l.size ≤ 0
    · simp [walkBookChecked, walkBook, h0, ih]
    · by_cases h1 : n ≤ l.price * l.size
      · have hp : l.price ≠ 0 := by
          intro hz
          exact h0 (by rw [hz]; simp)
        simp [walkBookChecked, walkBook, h0, h1, hp]
      · simp [walkBookChecked, walkBook, h0, h1, ih]

/-- C9: `calculate_effective_price` never divides by zero, for any input
book whatsoever, including books violating the documented level
preconditions: the division-checked variant (which returns `none` the
moment any division has a zero divisor) agrees with the function on every
input. -/
theorem effective_price_division_safe (ob : Orderbook) (side : Side)
    (n : ℚ) :
    calculate_effective_price_checked ob side n =
      some (calculate_effective_price ob side n) := by
  by_cases hn : n ≤ 0
  · simp [calculate_effective_price_checked, calculate_effective_price, hn]
  · simp only [calculate_effective_price_checked,
      calculate_effective_price_eq, hn, if_false, walkBookChecked_eq,
      Option.bind_some, walkRemaining, walkCost, walkShares]
    by_cases h1 : 0 < (walkBook (sideLevels ob side) n).1
    · simp [h1]
    · by_cases h2 : (walkBook (sideLevels ob side) n).2.2 ≤ 0
      · simp [h1, h2]
      · have hz : (walkBook (sideLevels ob side) n).2.2 ≠ 0 :=
          fun h => h2 (le_of_eq h)
        simp [h1, h2, hz]

/-- Price-floor bound: walking levels whose prices all sit at or above
`p`, the shares obtained cost at least `p` apiece — `p * shares` never
exceeds the notional actually spent. -/
theorem walkShares_floor (ls : List OrderbookLevel) (m p : ℚ)
    (hp : 0 < p) (hm : 0 < m)
    (hl : ∀ l ∈ ls, p ≤ l.price ∧ 0 ≤ l.size) :
    p * walkShares ls m ≤ m - walkRemaining ls m := by
  induction ls generalizing m with
  | nil =>
    show p * (walkBook [] m).2.2 ≤ m - (walkBook [] m).1
    rw [walkBook_nil]
    show p * 0 ≤ m - m
    linarith
  | cons l ls ih =>
    have hlp : p ≤ l.price := (hl l (List.mem_cons_self l ls)).1
    have hprice : 0 < l.price := lt_of_lt_of_le hp hlp
    have hl' : ∀ x ∈ ls, p ≤ x.price ∧ 0 ≤ x.size :=
      fun x hx => hl x (List.mem_cons_of_mem l hx)
    show p * (walkBook (l :: ls) m).2.2 ≤ m - (walkBook (l :: ls) m).1
    by_cases h0 : l.price * l.size ≤ 0
    · rw [walkBook_cons_skip _ _ _ h0]
      exact ih m hm hl'
    · by_cases h1 : m ≤ l.price * l.size
      · rw [walkBook_cons_fill _ _ _ h0 h1]
        show p * (m / l.price) ≤ m - 0
        have hdiv : 0 ≤ m / l.price := by positivity
        have h2 : p * (m / l.price) ≤ l.price * (m / l.price) :=
          mul_le_mul_of_nonneg_right hlp hdiv
        have h3 : l.price * (m / l.price) = m := by
          rw [mul_comm, div_mul_cancel₀ m hprice.ne']
        linarith
      · push_neg at h1
        rw [walkBook_cons_full _ _ _ h0 (not_le.mpr h1)]
        show p * (l.size + (walkBook ls (m - l.price * l.size)).2.2) ≤
          m - (walkBook ls (m - l.price * l.size)).1
        have hrec : p * (walkBook ls (m - l.price * l.size)).2.2 ≤
            (m - l.price * l.size) -
              (walkBook ls (m - l.price * l.size)).1 :=
          ih (m - l.price * l.size) (by linarith) hl'
        have hsz : p * l.size ≤ l.price * l.size :=
          mul_le_mul_of_nonneg_right hlp (hl l (List.mem_cons_self l ls)).2
        rw [mul_add]
        linarith

/-- Price-floor marginal bound: with all prices at or above `p`, the
extra shares obtained by raising the notional from `m1` to `m2` cost at
least `p` apiece. -/
theorem walkShares_marginal_floor (ls : List OrderbookLevel) (m1 m2 p : ℚ)
    (hp : 0 < p) (hm1 : 0 < m1) (hm12 : m1 ≤ m2)
    (hl : ∀ l ∈ ls, p ≤ l.price ∧ 0 ≤ l.size) :
    p * (walkShares ls m2 - walkShares ls m1) ≤ m2 - m1 := by
  induction ls generalizing m1 m2 with
  | nil =>
    show p * ((walkBook [] m2).2.2 - (walkBook [] m1).2.2) ≤ m2 - m1
    rw [walkBook_nil, walkBook_nil]
    show p * ((0 : ℚ) - 0) ≤ m2 - m1
    simp
    linarith
  | cons l ls ih =>
    have hlp : p ≤ l.price := (hl l (List.mem_cons_self l ls)).1
    have hprice : 0 < l.price := lt_of_lt_of_le hp hlp
    have hl' : ∀ x ∈ ls, p ≤ x.price ∧ 0 ≤ x.size :=
      fun x hx => hl x (List.mem_cons_of_mem l hx)
    show p * ((walkBook (l :: ls) m2).2.2 - (walkBook (l :: ls) m1).2.2) ≤
      m2 - m1
    by_cases h0 : l.price * l.size ≤ 0
    · rw [walkBook_cons_skip _ _ _ h0, walkBook_cons_skip _ _ _ h0]
      exact ih m1 m2 hm1 hm12 hl'
    · by_cases h2 : m2 ≤ l.price * l.size
      · have h1 : m1 ≤ l.price * l.size := le_trans hm12 h2
        rw [walkBook_cons_fill _ _ _ h0 h1, walkBook_cons_fill _ _ _ h0 h2]
        show p * (m2 / l.price - m1 / l.price) ≤ m2 - m1
        have heq : m2 / l.price - m1 / l.price = (m2 - m1) / l.price := by
          ring
        have hdiv : 0 ≤ (m2 - m1) / l.price :=
          div_nonneg (by linarith) hprice.le
        have hb : p * ((m2 - m1) / l.price) ≤
            l.price * ((m2 - m1) / l.price) :=
          mul_le_mul_of_nonneg_right hlp hdiv
        have hc : l.price * ((m2 - m1) / l.price) = m2 - m1 := by
          rw [mul_comm, div_mul_cancel₀ _ hprice.ne']
        rw [heq]
        linarith
      · push_neg at h2
        by_cases h1 : m1 ≤ l.price * l.size
        · rw [walkBook_cons_fill _ _ _ h0 h1,
            walkBook_cons_full _ _ _ h0 (not_le.mpr h2)]
          show p * (l.size + (walkBook ls (m2 - l.price * l.size)).2.2 -
            m1 / l.price) ≤ m2 - m1
          have hE : p * (walkBook ls (m2 - l.price * l.size)).2.2 ≤
              (m2 - l.price * l.size) -
                (walkBook ls (m2 - l.price * l.size)).1 :=
            walkShares_floor ls (m2 - l.price * l.size) p hp
              (by linarith) hl'
          have hRpos : 0 ≤ (walkBook ls (m2 - l.price * l.size)).1 :=
            (walkRemaining_bounds ls _ (by linarith)).1
          have hstep : p * (l.size - m1 / l.price) ≤
              l.price * l.size - m1 := by
            have hd : l.size - m1 / l.price =
                (l.price * l.size - m1) / l.price := by
              field_simp
              ring
            have hdnn : 0 ≤ (l.price * l.size - m1) / l.price :=
              div_nonneg (by linarith) hprice.le
            have hb : p * ((l.price * l.size - m1) / l.price) ≤
                l.price * ((l.price * l.size - m1) / l.price) :=
              mul_le_mul_of_nonneg_right hlp hdnn
            have hc : l.price * ((l.price * l.size - m1) / l.price) =
                l.price * l.size - m1 := by
              rw [mul_comm, div_mul_cancel₀ _ hprice.ne']
            calc p * (l.size - m1 / l.price)
                = p * ((l.price * l.size - m1) / l.price) := by rw [hd]
              _ ≤ l.price * ((l.price * l.size - m1) / l.price) := hb
              _ = l.price * l.size - m1 := hc
          have hsplit : p * (l.size + (walkBook ls
              (m2 - l.price * l.size)).2.2 - m1 / l.price) =
              p * (l.size - m1 / l.price) +
              p * (walkBook ls (m2 - l.price * l.size)).2.2 := by
            ring
          rw [hsplit]
          linarith
        · push_neg at h1
          rw [walkBook_cons_full _ _ _ h0 (not_le.mpr h1),
            walkBook_cons_full _ _ _ h0 (not_le.mpr h2)]
          show p * (l.size + (walkBook ls (m2 - l.price * l.size)).2.2 -
            (l.size + (walkBook ls (m1 - l.price * l.size)).2.2)) ≤ m2 - m1
          have hrec : p * ((walkBook ls (m2 - l.price * l.size)).2.2 -
              (walkBook ls (m1 - l.price * l.size)).2.2) ≤
              (m2 - l.price * l.size) - (m1 - l.price * l.size) :=
            ih (m1 - l.price * l.size) (m2 - l.price * l.size)
              (by linarith) (by linarith) hl'
          have hsplit : p * (l.size + (walkBook ls
              (m2 - l.price * l.size)).2.2 -
              (l.size + (walkBook ls (m1 - l.price * l.size)).2.2)) =
              p * ((walkBook ls (m2 - l.price * l.size)).2.2 -
                (walkBook ls (m1 - l.price * l.size)).2.2) := by
            ring
          rw [hsplit]
          linarith

/-- Price-ceiling bound: walking levels whose prices all sit at or below
`p`, if the walk fills completely then the shares obtained cost at most
`p` apiece — `p * shares` covers the whole notional. -/
theorem walkShares_ceil (ls : List OrderbookLevel) (m p : ℚ) (hm : 0 < m)
    (hl : ∀ l ∈ ls, 0 < l.price ∧ l.price ≤ p ∧ 0 ≤ l.size)
    (hr : walkRemaining ls m = 0) :
    m ≤ p * walkShares ls m := by
  induction ls generalizing m with
  | nil =>
    have h1 : walkRemaining [] m = m := rfl
    rw [h1] at hr
    linarith
  | cons l ls ih =>
    have hprice : 0 < l.price := (hl l (List.mem_cons_self l ls)).1
    have hlp : l.price ≤ p := (hl l (List.mem_cons_self l ls)).2.1
    have hl' : ∀ x ∈ ls, 0 < x.price ∧ x.price ≤ p ∧ 0 ≤ x.size :=
      fun x hx => hl x (List.mem_cons_of_mem l hx)
    show m ≤ p * (walkBook (l :: ls) m).2.2
    by_cases h0 : l.price * l.size ≤ 0
    · rw [walkBook_cons_skip _ _ _ h0]
      have hr' : walkRemaining ls m = 0 := by
        show (walkBook ls m).1 = 0
        rw [← walkBook_cons_skip l ls m h0]
        exact hr
      exact ih m hm hl' hr'
    · by_cases h1 : m ≤ l.price * l.size
      · rw [walkBook_cons_fill _ _ _ h0 h1]
        show m ≤ p * (m / l.price)
        have hdiv : 0 ≤ m / l.price := by positivity
        have hb : l.price * (m / l.price) ≤ p * (m / l.price) :=
          mul_le_mul_of_nonneg_right hlp hdiv
        have hc : l.price * (m / l.price) = m := by
          rw [mul_comm, div_mul_cancel₀ m hprice.ne']
        linarith
      · push_neg at h1
        have hr' : walkRemaining ls (m - l.price * l.size) = 0 := by
          show (walkBook ls (m - l.price * l.size)).1 = 0
          have := hr
          show _ = _
          rw [walkRemaining, walkBook_cons_full _ _ _ h0
            (not_le.mpr h1)] at this
          exact this
        rw [walkBook_cons_full _ _ _ h0 (not_le.mpr h1)]
        show m ≤ p * (l.size + (walkBook ls (m - l.price * l.size)).2.2)
        have hrec : m - l.price * l.size ≤
            p * (walkBook ls (m - l.price * l.size)).2.2 :=
          ih (m - l.price * l.size) (by linarith) hl' hr'
        have hsz : l.price * l.size ≤ p * l.size :=
          mul_le_mul_of_nonneg_right hlp
            (hl l (List.mem_cons_self l ls)).2.2
        rw [mul_add]
        linarith

/-- Price-ceiling marginal bound: with all prices at or below `p` and the
larger walk filling completely, the extra shares obtained by raising the
notional from `m1` to `m2` cost at most `p` apiece. -/
theorem walkShares_marginal_ceil (ls : List OrderbookLevel) (m1 m2 p : ℚ)
    (hm1 : 0 < m1) (hm12 : m1 ≤ m2)
    (hl : ∀ l ∈ ls, 0 < l.price ∧ l.price ≤ p ∧ 0 ≤ l.size)
    (hr : walkRemaining ls m2 = 0) :
    m2 - m1 ≤ p * (walkShares ls m2 - walkShares ls m1) := by
  induction ls generalizing m1 m2 with
  | nil =>
    have h1 : walkRemaining [] m2 = m2 := rfl
    rw [h1] at hr
    linarith
  | cons l ls ih =>
    have hprice : 0 < l.price := (hl l (List.mem_cons_self l ls)).1
    have hlp : l.price ≤ p := (hl l (List.mem_cons_self l ls)).2.1
    have hl' : ∀ x ∈ ls, 0 < x.price ∧ x.price ≤ p ∧ 0 ≤ x.size :=
      fun x hx => hl x (List.mem_cons_of_mem l hx)
    show m2 - m1 ≤
      p * ((walkBook (l :: ls) m2).2.2 - (walkBook (l :: ls) m1).2.2)
    by_cases h0 : l.price * l.size ≤ 0
    · rw [walkBook_cons_skip _ _ _ h0, walkBook_cons_skip _ _ _ h0]
      have hr' : walkRemaining ls m2 = 0 := by
        show (walkBook ls m2).1 = 0
        rw [← walkBook_cons_skip l ls m2 h0]
        exact hr
      exact ih m1 m2 hm1 hm12 hl' hr'
    · by_cases h2 : m2 ≤ l.price * l.size
      · have h1 : m1 ≤ l.price * l.size := le_trans hm12 h2
        rw [walkBook_cons_fill _ _ _ h0 h1, walkBook_cons_fill _ _ _ h0 h2]
        show m2 - m1 ≤ p * (m2 / l.price - m1 / l.price)
        have heq : m2 / l.price - m1 / l.price = (m2 - m1) / l.price := by
          ring
        have hdiv : 0 ≤ (m2 - m1) / l.price :=
          div_nonneg (by linarith) hprice.le
        have hb : l.price * ((m2 - m1) / l.price) ≤
            p * ((m2 - m1) / l.price) :=
          mul_le_mul_of_nonneg_right hlp hdiv
        have hc : l.price * ((m2 - m1) / l.price) = m2 - m1 := by
          rw [mul_comm, div_mul_cancel₀ _ hprice.ne']
        rw [heq]
        linarith
      · push_neg at h2
        have hr' : walkRemaining ls (m2 - l.price * l.size) = 0 := by
          show (walkBook ls (m2 - l.price * l.size)).1 = 0
          have hcopy := hr
          rw [walkRemaining, walkBook_cons_full _ _ _ h0
            (not_le.mpr h2)] at hcopy
          exact hcopy
        by_cases h1 : m1 ≤ l.price * l.size
        · rw [walkBook_cons_fill _ _ _ h0 h1,
            walkBook_cons_full _ _ _ h0 (not_le.mpr h2)]
          show m2 - m1 ≤ p * (l.size +
            (walkBook ls (m2 - l.price * l.size)).2.2 - m1 / l.price)
          have hE : m2 - l.price * l.size ≤
              p * (walkBook ls (m2 - l.price * l.size)).2.2 :=
            walkShares_ceil ls (m2 - l.price * l.size) p
              (by linarith) hl' hr'
          have hstep : l.price * l.size - m1 ≤
              p * (l.size - m1 / l.price) := by
            have hd : l.size - m1 / l.price =
                (l.price * l.size - m1) / l.price := by
              field_simp
              ring
            have hdnn : 0 ≤ (l.price * l.size - m1) / l.price :=
              div_nonneg (by linarith) hprice.le
            have hb : l.price * ((l.price * l.size - m1) / l.price) ≤
                p * ((l.price * l.size - m1) / l.price) :=
              mul_le_mul_of_nonneg_right hlp hdnn
            have hc : l.price * ((l.price * l.size - m1) / l.price) =
                l.price * l.size - m1 := by
              rw [mul_comm, div_mul_cancel₀ _ hprice.ne']
            calc l.price * l.size - m1
                = l.price * ((l.price * l.size - m1) / l.price) := hc.symm
              _ ≤ p * ((l.price * l.size - m1) / l.price) := hb
              _ = p * (l.size - m1 / l.price) := by rw [hd]
          have hsplit : p * (l.size +
              (walkBook ls (m2 - l.price * l.size)).2.2 - m1 / l.price) =
              p * (l.size - m1 / l.price) +
              p * (walkBook ls (m2 - l.price * l.size)).2.2 := by
            ring
          rw [hsplit]
          linarith
        · push_neg at h1
          rw [walkBook_cons_full _ _ _ h0 (not_le.mpr h1),
            walkBook_cons_full _ _ _ h0 (not_le.mpr h2)]
          show m2 - m1 ≤
            p * (l.size + (walkBook ls (m2 - l.price * l.size)).2.2 -
              (l.size + (walkBook ls (m1 - l.price * l.size)).2.2))
          have hrec : (m2 - l.price * l.size) - (m1 - l.price * l.size) ≤
              p * ((walkBook ls (m2 - l.price * l.size)).2.2 -
                (walkBook ls (m1 - l.price * l.size)).2.2) :=
            ih (m1 - l.price * l.size) (m2 - l.price * l.size)
              (by linarith) (by linarith) hl' hr'
          have hsplit : p * (l.size +
              (walkBook ls (m2 - l.price * l.size)).2.2 -
              (l.size + (walkBook ls (m1 - l.price * l.size)).2.2)) =
              p * ((walkBook ls (m2 - l.price * l.size)).2.2 -
                (walkBook ls (m1 - l.price * l.size)).2.2) := by
            ring
          rw [hsplit]
          linarith

/-- Walking an ascending-price book, a larger notional never buys shares
at a better average price: `n1 / shares(n1) ≤ n2 / shares(n2)` in
cross-multiplied form. -/
theorem walkShares_monotone_asc (ls : List OrderbookLevel) (n1 n2 : ℚ)
    (hn1 : 0 < n1) (h12 : n1 ≤ n2)
    (hsorted : ls.Pairwise (fun a b => a.price ≤ b.price))
    (hl : ∀ l ∈ ls, 0 < l.price ∧ 0 ≤ l.size) :
    n1 * walkShares ls n2 ≤ n2 * walkShares ls n1 := by
  induction ls generalizing n1 n2 with
  | nil =>
    show n1 * (walkBook [] n2).2.2 ≤ n2 * (walkBook [] n1).2.2
    rw [walkBook_nil, walkBook_nil]
    show n1 * 0 ≤ n2 * 0
    simp
  | cons l ls ih =>
    have hprice : 0 < l.price := (hl l (List.mem_cons_self l ls)).1
    have hhead : ∀ b ∈ ls, l.price ≤ b.price :=
      (List.pairwise_cons.mp hsorted).1
    have htail : ls.Pairwise (fun a b => a.price ≤ b.price) :=
      (List.pairwise_cons.mp hsorted).2
    have hl' : ∀ x ∈ ls, 0 < x.price ∧ 0 ≤ x.size :=
      fun x hx => hl x (List.mem_cons_of_mem l hx)
    show n1 * (walkBook (l :: ls) n2).2.2 ≤ n2 * (walkBook (l :: ls) n1).2.2
    by_cases h0 : l.price * l.size ≤ 0
    · rw [walkBook_cons_skip _ _ _ h0, walkBook_cons_skip _ _ _ h0]
      exact ih n1 n2 hn1 h12 htail hl'
    · by_cases h2 : n2 ≤ l.price * l.size
      · have h1 : n1 ≤ l.price * l.size := le_trans h12 h2
        rw [walkBook_cons_fill _ _ _ h0 h1, walkBook_cons_fill _ _ _ h0 h2]
        show n1 * (n2 / l.price) ≤ n2 * (n1 / l.price)
        have : n1 * (n2 / l.price) = n2 * (n1 / l.price) := by ring
        linarith
      · push_neg at h2
        by_cases h1 : n1 ≤ l.price * l.size
        · rw [walkBook_cons_fill _ _ _ h0 h1,
            walkBook_cons_full _ _ _ h0 (not_le.mpr h2)]
          show n1 * (l.size +
            (walkBook ls (n2 - l.price * l.size)).2.2) ≤
            n2 * (n1 / l.price)
          have hfloor : l.price *
              (walkBook ls (n2 - l.price * l.size)).2.2 ≤
              (n2 - l.price * l.size) -
                (walkBook ls (n2 - l.price * l.size)).1 :=
            walkShares_floor ls (n2 - l.price * l.size) l.price hprice
              (by linarith) (fun x hx => ⟨hhead x hx, (hl' x hx).2⟩)
          have hR : 0 ≤ (walkBook ls (n2 - l.price * l.size)).1 :=
            (walkRemaining_bounds ls _ (by linarith)).1
          have hS2 : (walkBook ls (n2 - l.price * l.size)).2.2 ≤
              (n2 - l.price * l.size) / l.price :=
            (le_div_iff₀ hprice).mpr (by linarith)
          have hmul : n1 * (walkBook ls (n2 - l.price * l.size)).2.2 ≤
              n1 * ((n2 - l.price * l.size) / l.price) :=
            mul_le_mul_of_nonneg_left hS2 hn1.le
          have hkey : n2 * (n1 / l.price) =
              n1 * l.size + n1 * ((n2 - l.price * l.size) / l.price) := by
            field_simp
            ring
          rw [mul_add, hkey]
          linarith
        · push_neg at h1
          rw [walkBook_cons_full _ _ _ h0 (not_le.mpr h1),
            walkBook_cons_full _ _ _ h0 (not_le.mpr h2)]
          show n1 * (l.size +
            (walkBook ls (n2 - l.price * l.size)).2.2) ≤
            n2 * (l.size + (walkBook ls (n1 - l.price * l.size)).2.2)
          have hrec : (n1 - l.price * l.size) *
              (walkBook ls (n2 - l.price * l.size)).2.2 ≤
              (n2 - l.price * l.size) *
                (walkBook ls (n1 - l.price * l.size)).2.2 :=
            ih (n1 - l.price * l.size) (n2 - l.price * l.size)
              (by linarith) (by linarith) htail hl'
          have hmarg : l.price *
              ((walkBook ls (n2 - l.price * l.size)).2.2 -
               (walkBook ls (n1 - l.price * l.size)).2.2) ≤
              (n2 - l.price * l.size) - (n1 - l.price * l.size) :=
            walkShares_marginal_floor ls (n1 - l.price * l.size)
              (n2 - l.price * l.size) l.price hprice (by linarith)
              (by linarith) (fun x hx => ⟨hhead x hx, (hl' x hx).2⟩)
          have hsz : 0 ≤ l.size := (hl l (List.mem_cons_self l ls)).2
          nlinarith [mul_le_mul_of_nonneg_left hmarg hsz]

/-- Walking a descending-price book, a larger notional that fills
completely never sells shares at a better (higher) average price:
`n2 / shares(n2) ≤ n1 / shares(n1)` in cross-multiplied form. -/
theorem walkShares_monotone_desc (ls : List OrderbookLevel) (n1 n2 : ℚ)
    (hn1 : 0 < n1) (h12 : n1 ≤ n2)
    (hsorted : ls.Pairwise (fun a b => b.price ≤ a.price))
    (hl : ∀ l ∈ ls, 0 < l.price ∧ 0 ≤ l.size)
    (hr : walkRemaining ls n2 = 0) :
    n2 * walkShares ls n1 ≤ n1 * walkShares ls n2 := by
  induction ls generalizing n1 n2 with
  | nil =>
    have h1 : walkRemaining [] n2 = n2 := rfl
    rw [h1] at hr
    linarith
  | cons l ls ih =>
    have hprice : 0 < l.price := (hl l (List.mem_cons_self l ls)).1
    have hhead : ∀ b ∈ ls, b.price ≤ l.price :=
      (List.pairwise_cons.mp hsorted).1
    have htail : ls.Pairwise (fun a b => b.price ≤ a.price) :=
      (List.pairwise_cons.mp hsorted).2
    have hl' : ∀ x ∈ ls, 0 < x.price ∧ 0 ≤ x.size :=
      fun x hx => hl x (List.mem_cons_of_mem l hx)
    show n2 * (walkBook (l :: ls) n1).2.2 ≤ n1 * (walkBook (l :: ls) n2).2.2
    by_cases h0 : l.price * l.size ≤ 0
    · rw [walkBook_cons_skip _ _ _ h0, walkBook_cons_skip _ _ _ h0]
      have hr' : walkRemaining ls n2 = 0 := by
        show (walkBook ls n2).1 = 0
        rw [← walkBook_cons_skip l ls n2 h0]
        exact hr
      exact ih n1 n2 hn1 h12 htail hl' hr'
    · by_cases h2 : n2 ≤ l.price * l.size
      · have h1 : n1 ≤ l.price * l.size := le_trans h12 h2
        rw [walkBook_cons_fill _ _ _ h0 h1, walkBook_cons_fill _ _ _ h0 h2]
        show n2 * (n1 / l.price) ≤ n1 * (n2 / l.price)
        have : n2 * (n1 / l.price) = n1 * (n2 / l.price) := by ring
        linarith
      · push_neg at h2
        have hr' : walkRemaining ls (n2 - l.price * l.size) = 0 := by
          show (walkBook ls (n2 - l.price * l.size)).1 = 0
          have hcopy := hr
          rw [walkRemaining, walkBook_cons_full _ _ _ h0
            (not_le.mpr h2)] at hcopy
          exact hcopy
        by_cases h1 : n1 ≤ l.price * l.size
        · rw [walkBook_cons_fill _ _ _ h0 h1,
            walkBook_cons_full _ _ _ h0 (not_le.mpr h2)]
          show n2 * (n1 / l.price) ≤
            n1 * (l.size + (walkBook ls (n2 - l.price * l.size)).2.2)
          have hE : n2 - l.price * l.size ≤
              l.price * (walkBook ls (n2 - l.price * l.size)).2.2 :=
            walkShares_ceil ls (n2 - l.price * l.size) l.price
              (by linarith)
              (fun x hx => ⟨(hl' x hx).1, hhead x hx, (hl' x hx).2⟩) hr'
          have hY : (n2 - l.price * l.size) / l.price ≤
              (walkBook ls (n2 - l.price * l.size)).2.2 :=
            (div_le_iff₀ hprice).mpr (by linarith)
          have hmul : n1 * ((n2 - l.price * l.size) / l.price) ≤
              n1 * (walkBook ls (n2 - l.price * l.size)).2.2 :=
            mul_le_mul_of_nonneg_left hY hn1.le
          have hkey : n2 * (n1 / l.price) =
              n1 * l.size + n1 * ((n2 - l.price * l.size) / l.price) := by
            field_simp
            ring
          rw [mul_add, hkey]
          linarith
        · push_neg at h1
          rw [walkBook_cons_full _ _ _ h0 (not_le.mpr h1),
            walkBook_cons_full _ _ _ h0 (not_le.mpr h2)]
          show n2 * (l.size +
            (walkBook ls (n1 - l.price * l.size)).2.2) ≤
            n1 * (l.size + (walkBook ls (n2 - l.price * l.size)).2.2)
          have hrec : (n2 - l.price * l.size) *
              (walkBook ls (n1 - l.price * l.size)).2.2 ≤
              (n1 - l.price * l.size) *
                (walkBook ls (n2 - l.price * l.size)).2.2 :=
            ih (n1 - l.price * l.size) (n2 - l.price * l.size)
              (by linarith) (by linarith) htail hl' hr'
          have hmarg : (n2 - l.price * l.size) -
              (n1 - l.price * l.size) ≤ l.price *
              ((walkBook ls (n2 - l.price * l.size)).2.2 -
               (walkBook ls (n1 - l.price * l.size)).2.2) :=
            walkShares_marginal_ceil ls (n1 - l.price * l.size)
              (n2 - l.price * l.size) l.price (by linarith) (by linarith)
              (fun x hx => ⟨(hl' x hx).1, hhead x hx, (hl' x hx).2⟩) hr'
          have hsz : 0 ≤ l.size := (hl l (List.mem_cons_self l ls)).2
          nlinarith [mul_le_mul_of_nonneg_left hmarg hsz]

/-- Inversion of a successful `calculate_effective_price` call: the
notional is positive, the book filled completely, the shares are
positive, and the returned price is `n / total_shares`. -/
theorem effective_price_ok_inv (ob : Orderbook) (side : Side) (n r : ℚ)
    (h : calculate_effective_price ob side n = Except.ok r) :
    0 < n ∧ walkRemaining (sideLevels ob side) n = 0 ∧
      0 < walkShares (sideLevels ob side) n ∧
      r = n / walkShares (sideLevels ob side) n := by
  rw [calculate_effective_price_eq] at h
  by_cases hn : n ≤ 0
  · rw [if_pos hn] at h
    cases h
  · rw [if_neg hn] at h
    have hnp : 0 < n := not_le.mp hn
    by_cases h1 : 0 < walkRemaining (sideLevels ob side) n
    · rw [if_pos h1] at h
      cases h
    · rw [if_neg h1] at h
      by_cases h2 : walkShares (sideLevels ob side) n ≤ 0
      · rw [if_pos h2] at h
        cases h
      · rw [if_neg h2] at h
        have hr0 : walkRemaining (sideLevels ob side) n = 0 :=
          le_antisymm (not_lt.mp h1)
            (walkRemaining_bounds (sideLevels ob side) n hnp).1
        have hcost : walkCost (sideLevels ob side) n = n := by
          rw [walkCost_eq_spent, hr0]
          ring
        injection h with hh
        exact ⟨hnp, hr0, not_le.mp h2, by rw [← hh, hcost]⟩

/-- C4: on a book with ascending-price asks and descending-price bids
(prices in `(0,1]`, sizes nonnegative), widening the trade notional never
decreases the effective BUY price and never increases the effective SELL
price, whenever both evaluations succeed. -/
theorem effective_price_monotone_spec (ob : Orderbook) (n1 n2 : ℚ)
    (hasorted : ob.asks.Pairwise (fun a b => a.price ≤ b.price))
    (hbsorted : ob.bids.Pairwise (fun a b => b.price ≤ a.price))
    (hasks : ∀ l ∈ ob.asks, 0 < l.price ∧ l.price ≤ 1 ∧ 0 ≤ l.size)
    (hbids : ∀ l ∈ ob.bids, 0 < l.price ∧ l.price ≤ 1 ∧ 0 ≤ l.size)
    (hn1 : 0 < n1) (h12 : n1 ≤ n2) :
    (∀ r1 r2, calculate_effective_price ob Side.BUY n1 = Except.ok r1 →
      calculate_effective_price ob Side.BUY n2 = Except.ok r2 →
      r1 ≤ r2) ∧
    (∀ r1 r2, calculate_effective_price ob Side.SELL n1 = Except.ok r1 →
      calculate_effective_price ob Side.SELL n2 = Except.ok r2 →
      r2 ≤ r1) := by
  constructor
  · intro r1 r2 hok1 hok2
    obtain ⟨-, -, hs1, hrr1⟩ := effective_price_ok_inv ob Side.BUY n1 r1 hok1
    obtain ⟨-, -, hs2, hrr2⟩ := effective_price_ok_inv ob Side.BUY n2 r2 hok2
    have hmain : n1 * walkShares ob.asks n2 ≤ n2 * walkShares ob.asks n1 :=
      walkShares_monotone_asc ob.asks n1 n2 hn1 h12 hasorted
        (fun l hl => ⟨(hasks l hl).1, (hasks l hl).2.2⟩)
    rw [hrr1, hrr2]
    exact (div_le_div_iff₀ hs1 hs2).mpr hmain
  · intro r1 r2 hok1 hok2
    obtain ⟨-, -, hs1, hrr1⟩ :=
      effective_price_ok_inv ob Side.SELL n1 r1 hok1
    obtain ⟨-, hr2, hs2, hrr2⟩ :=
      effective_price_ok_inv ob Side.SELL n2 r2 hok2
    have hmain : n2 * walkShares ob.bids n1 ≤ n1 * walkShares ob.bids n2 :=
      walkShares_monotone_desc ob.bids n1 n2 hn1 h12 hbsorted
        (fun l hl => ⟨(hbids l hl).1, (hbids l hl).2.2⟩) hr2
    rw [hrr1, hrr2]
    exact (div_le_div_iff₀ hs2 hs1).mpr hmain

/-- C4 witness: on the demo book, a 10-notional and a 30-notional BUY
give effective prices 2/5 ≤ 3/7, and the corresponding SELLs give 3/5
and 3/5 with the larger trade no higher. -/
theorem effective_price_monotone_spec_witness :
    calculate_effective_price demoBook Side.BUY 10 = Except.ok (2/5) ∧
    calculate_effective_price demoBook Side.BUY 30 = Except.ok (3/7) ∧
    ((2 : ℚ)/5 ≤ 3/7) ∧
    calculate_effective_price demoBook Side.SELL 10 = Except.ok (3/5) ∧
    calculate_effective_price demoBook Side.SELL 30 = Except.ok (3/5) ∧
    ((3 : ℚ)/5 ≤ 3/5) := by
  have hb1 : calculate_effective_price demoBook Side.BUY 10 =
      Except.ok (2/5) := by
    norm_num [calculate_effective_price, walkRemaining, walkCost,
      walkShares, walkBook, sideLevels, demoBook]
  have hb2 : calculate_effective_price demoBook Side.BUY 30 =
      Except.ok (3/7) := by
    norm_num [calculate_effective_price, walkRemaining, walkCost,
      walkShares, walkBook, sideLevels, demoBook]
  have hs1 : calculate_effective_price demoBook Side.SELL 10 =
      Except.ok (3/5) := by
    norm_num [calculate_effective_price, walkRemaining, walkCost,
      walkShares, walkBook, sideLevels, demoBook]
  have hs2 : calculate_effective_price demoBook Side.SELL 30 =
      Except.ok (3/5) := by
    norm_num [calculate_effective_price, walkRemaining, walkCost,
      walkShares, walkBook, sideLevels, demoBook]
  have hmono := effective_price_monotone_spec demoBook 10 30
    (by norm_num [demoBook, List.pairwise_cons])
    (by norm_num [demoBook, List.pairwise_cons])
    (by intro l hl; simp [demoBook] at hl; rcases hl with rfl | rfl <;>
      norm_num)
    (by intro l hl; simp [demoBook] at hl; rcases hl with rfl | rfl <;>
      norm_num)
    (by norm_num) (by norm_num)
  exact ⟨hb1, hb2, hmono.1 (2/5) (3/7) hb1 hb2, hs1, hs2,
    hmono.2 (3/5) (3/5) hs1 hs2⟩

/-- Both shape parameters produced by `BetaModel.parameters` are at
least 1. -/
theorem parameters_one_le (m : BetaModel) :
    1 ≤ (m.parameters).1 ∧ 1 ≤ (m.parameters).2 := by
  have hb0 : 0 ≤ np_clip m.belief_probability 0 1 :=
    le_min (le_max_right _ 0) (by norm_num)
  have hb1 : np_clip m.belief_probability 0 1 ≤ 1 := min_le_right _ _
  have hs1 : 1 ≤ np_clip m.confidence_strength 1 100 :=
    le_min (le_max_right _ 1) (by norm_num)
  constructor <;> simp only [BetaModel.parameters] <;> nlinarith

/-- `linspace` produces `n` samples. -/
theorem linspace_length (a b : ℚ) (n : ℕ) : (linspace a b n).length = n := by
  rw [linspace, List.length_map, List.length_range]

/-- `BetaModel.pdf` produces `points` abscissae. -/
theorem pdf_xs_length (points : ℕ) :
    (BetaModel.pdf_xs points).length = points := by
  rw [BetaModel.pdf_xs, linspace_length]

/-- `BetaModel.pdf` produces `points` ordinates. -/
theorem pdf_ys_length (m : BetaModel) (points : ℕ) :
    (BetaModel.pdf_ys m points).length = points := by
  rw [BetaModel.pdf_ys, List.length_map, pdf_xs_length]

/-- Closed form of the `i`-th sample of `linspace`. -/
theorem linspace_getD (a b : ℚ) (n i : ℕ) (h : i < n) :
    (linspace a b n).getD i 0 = a + (b - a) * (i : ℚ) / ((n : ℚ) - 1) := by
  have hlen : i < (linspace a b n).length := by rw [linspace_length]; exact h
  rw [List.getD_eq_getElem _ _ hlen]
  simp only [linspace, List.getElem_map, List.getElem_range]

/-- C8: for `points ≥ 2`, `BetaModel.pdf` samples exactly `points`
evenly spaced abscissae over `[0,1]` with first point 0, last point 1
and spacing `1/(points-1)`, and the ordinate at each abscissa is the
standard Beta density `x^(a-1) (1-x)^(b-1) / B(a,b)` for the model's
shape parameters; the normalizing constant `B(a,b)` is strictly
positive, so the density is well-defined everywhere on `[0,1]`,
including the endpoints. -/
theorem beta_pdf_curve_spec (m : BetaModel) (points : ℕ)
    (hpts : 2 ≤ points) :
    (BetaModel.pdf_xs points).length = points ∧
    (BetaModel.pdf_ys m points).length = points ∧
    (BetaModel.pdf_xs points).getD 0 0 = 0 ∧
    (BetaModel.pdf_xs points).getD (points - 1) 0 = 1 ∧
    (∀ i, i + 1 < points →
      (BetaModel.pdf_xs points).getD (i + 1) 0 -
        (BetaModel.pdf_xs points).getD i 0 = 1 / ((points : ℚ) - 1)) ∧
    (∀ i, i < points →
      (BetaModel.pdf_ys m points).getD i 0 =
        (((BetaModel.pdf_xs points).getD i 0 : ℚ) : ℝ) ^
            (((m.parameters).1 : ℝ) - 1) *
          (1 - (((BetaModel.pdf_xs points).getD i 0 : ℚ) : ℝ)) ^
            (((m.parameters).2 : ℝ) - 1) /
          (Real.Gamma ((m.parameters).1 : ℝ) *
            Real.Gamma ((m.parameters).2 : ℝ) /
            Real.Gamma (((m.parameters).1 : ℝ) +
              ((m.parameters).2 : ℝ)))) ∧
    0 < Real.Gamma ((m.parameters).1 : ℝ) *
        Real.Gamma ((m.parameters).2 : ℝ) /
        Real.Gamma (((m.parameters).1 : ℝ) + ((m.parameters).2 : ℝ)) := by
  have h2q : (2 : ℚ) ≤ (points : ℚ) := by exact_mod_cast hpts
  have hne : ((points : ℚ) - 1) ≠ 0 := by
    intro hz
    rw [sub_eq_zero] at hz
    rw [hz] at h2q
    norm_num at h2q
  refine ⟨pdf_xs_length points, pdf_ys_length m points, ?_, ?_, ?_, ?_, ?_⟩
  · rw [BetaModel.pdf_xs, linspace_getD 0 1 points 0 (by omega)]
    norm_num
  · rw [BetaModel.pdf_xs, linspace_getD 0 1 points (points - 1) (by omega)]
    rw [Nat.cast_sub (by omega : 1 ≤ points), Nat.cast_one]
    field_simp
  · intro i hi
    rw [BetaModel.pdf_xs, linspace_getD 0 1 points (i + 1) hi,
      linspace_getD 0 1 points i (by omega)]
    push_cast
    field_simp
    try ring
  · intro i hi
    have hlx : i < (BetaModel.pdf_xs points).length := by
      rw [pdf_xs_length]
      exact hi
    have hly : i < (BetaModel.pdf_ys m points).length := by
      rw [pdf_ys_length]
      exact hi
    rw [List.getD_eq_getElem _ _ hly, List.getD_eq_getElem _ _ hlx]
    simp only [BetaModel.pdf_ys, List.getElem_map]
    rw [betaPDF]
  · have hone := parameters_one_le m
    have ha : (0 : ℝ) < ((m.parameters).1 : ℝ) := by
      have h1 : (1 : ℝ) ≤ ((m.parameters).1 : ℝ) := by exact_mod_cast hone.1
      linarith
    have hb : (0 : ℝ) < ((m.parameters).2 : ℝ) := by
      have h1 : (1 : ℝ) ≤ ((m.parameters).2 : ℝ) := by exact_mod_cast hone.2
      linarith
    exact div_pos
      (mul_pos (Real.Gamma_pos_of_pos ha) (Real.Gamma_pos_of_pos hb))
      (Real.Gamma_pos_of_pos (by linarith))

/-- C8 witness: the curve sampled at 3 points for belief 1/2, strength 1
has 3 abscissae and ordinates, starting at 0 and ending at 1. -/
theorem beta_pdf_curve_spec_witness :
    (BetaModel.pdf_xs 3).length = 3 ∧
    (BetaModel.pdf_ys ⟨1/2, 1⟩ 3).length = 3 ∧
    (BetaModel.pdf_xs 3).getD 0 0 = 0 ∧
    (BetaModel.pdf_xs 3).getD 2 0 = 1 := by
  have h := beta_pdf_curve_spec ⟨1/2, 1⟩ 3 (by norm_num)
  exact ⟨h.1, h.2.1, h.2.2.1, h.2.2.2.1⟩

/-- C10: the Kelly fraction returned by `compute_trade_metrics` always
lies in `[0, 1]` — not only is it floored at zero as documented, it also
never exceeds 1, for every input. -/
theorem kelly_fraction_bounded (e t sz : ℚ) :
    0 ≤ (compute_trade_metrics e t sz).kelly_fraction ∧
    (compute_trade_metrics e t sz).kelly_fraction ≤ 1 := by
  have hkelly : (compute_trade_metrics e t sz).kelly_fraction =
      max 0 ((min (max t 0) 1 - min (max e 0) 1) /
        max (1 - min (max e 0) 1) (1/1000000)) := by
    simp [compute_trade_metrics, np_clip]
  have he1 : min (max e 0) 1 ≤ 1 := min_le_right _ _
  have ht1 : min (max t 0) 1 ≤ 1 := min_le_right _ _
  have hdpos : 0 < max (1 - min (max e 0) 1) (1/1000000) :=
    lt_max_of_lt_right (by norm_num)
  have hev : min (max t 0) 1 - min (max e 0) 1 ≤
      max (1 - min (max e 0) 1) (1/1000000) :=
    le_trans (by linarith) (le_max_left _ _)
  refine ⟨?_, ?_⟩ <;> rw [hkelly]
  · exact le_max_left 0 _
  · exact max_le (by norm_num) ((div_le_one hdpos).mpr hev)
